import Mathlib

set_option maxRecDepth 4000

/-!
Shallow embedding of the UART console firmware in src/Core/Src/console.c.

Transmitted output is modelled as a list of characters (the byte stream
handed to HAL_UART_Transmit, in order).  The in-progress line buffer
line_buf together with line_len is modelled as the list of its first
line_len characters.  The DMA receive buffer is a list of 128 characters;
the hardware NDTR counter is a natural number parameter of each poll.
-/

/-- Embeds the macro constant UART_RX_DMA_BUF_SIZE from console.c. -/
def UART_RX_DMA_BUF_SIZE : Nat := 128

/-- Embeds the macro constant LINE_BUF_SIZE from console.c. -/
def LINE_BUF_SIZE : Nat := 64

/-- Embeds console_prompt: transmits the two characters of the prompt. -/
def console_prompt : List Char := "> ".toList

/-- Embeds console_write: transmits the characters of a C string. -/
def console_write (s : String) : List Char := s.toList

/-- Embeds console_handle_command from console.c lines 38 to 49: on the
exact command text help it writes the fixed help line, and it always
writes the prompt afterwards.  The returned list is the transmitted
output of the call. -/
def console_handle_command (cmd : List Char) : List Char :=
  (if cmd = "help".toList then console_write "help, led off, led slow, led fast\r\n"
   else []) ++ console_prompt

/-- Embeds one iteration of the loop body of console_process_bytes from
console.c lines 103 to 162.  Input: current line (first line_len chars of
line_buf) and the byte c.  Output: new line and transmitted bytes. -/
def process_byte (line : List Char) (c : Char) : List Char × List Char :=
  if c = '\r' ∨ c = '\n' then
    if 0 < line.length then
      ([], "\r\n".toList ++ console_handle_command line)
    else
      (line, "\r\n".toList)
  else if c.toNat = 0x08 ∨ c.toNat = 0x7F then
    if 0 < line.length then
      (line.dropLast, "\x08 \x08".toList)
    else
      (line, [])
  else if 0x20 ≤ c.toNat ∧ c.toNat ≤ 0x7E then
    if line.length < LINE_BUF_SIZE - 1 then
      (line ++ [c], [c])
    else
      (line, [])
  else
    (line, [])

/-- Embeds console_process_bytes: folds process_byte over the span handed
in, threading the line and concatenating the transmitted output. -/
def console_process_bytes (line : List Char) (data : List Char) :
    List Char × List Char :=
  match data with
  | [] => (line, [])
  | c :: rest =>
    let r := process_byte line c
    let r2 := console_process_bytes r.1 rest
    (r2.1, r.2 ++ r2.2)

/-- State of the console module: the static variables of console.c. -/
structure UartState where
  uart_rx_dma_buf : List Char
  dma_last_pos : Nat
  rx_pending : Bool
  line_buf : List Char
deriving Repr, DecidableEq

/-- Embeds the computation of dma_pos in task_console, line 71 to 72 of
console.c: the uint16_t value of UART_RX_DMA_BUF_SIZE minus the hardware
counter, with the wrap of C unsigned arithmetic made explicit mod 2 ^ 16. -/
def dma_pos_of (counter : Nat) : Nat :=
  (UART_RX_DMA_BUF_SIZE + 65536 - counter % 65536) % 65536

/-- Embeds task_console from console.c lines 64 to 99.  The hardware
counter reading is a parameter; the result is the new state paired with
the transmitted output. -/
def task_console (st : UartState) (counter : Nat) : UartState × List Char :=
  if !st.rx_pending then (st, [])
  else
    let dma_pos := dma_pos_of counter
    if dma_pos ≠ st.dma_last_pos then
      if dma_pos > st.dma_last_pos then
        let r := console_process_bytes st.line_buf
          ((st.uart_rx_dma_buf.drop st.dma_last_pos).take (dma_pos - st.dma_last_pos))
        ({ st with rx_pending := false, dma_last_pos := dma_pos, line_buf := r.1 }, r.2)
      else
        let r1 := console_process_bytes st.line_buf
          ((st.uart_rx_dma_buf.drop st.dma_last_pos).take
            (UART_RX_DMA_BUF_SIZE - st.dma_last_pos))
        if dma_pos > 0 then
          let r2 := console_process_bytes r1.1 (st.uart_rx_dma_buf.take dma_pos)
          ({ st with rx_pending := false, dma_last_pos := dma_pos, line_buf := r2.1 },
            r1.2 ++ r2.2)
        else
          ({ st with rx_pending := false, dma_last_pos := dma_pos, line_buf := r1.1 },
            r1.2)
    else
      ({ st with rx_pending := false }, [])

/-- The list of spans, as pairs of start index and length, that
task_console hands to console_process_bytes, read off the branch
structure of console.c lines 74 to 96. -/
def poll_spans (last_pos dma_pos : Nat) : List (Nat × Nat) :=
  if dma_pos ≠ last_pos then
    if dma_pos > last_pos then
      [(last_pos, dma_pos - last_pos)]
    else
      (last_pos, UART_RX_DMA_BUF_SIZE - last_pos) ::
        (if dma_pos > 0 then [(0, dma_pos)] else [])
  else []

/-- The bytes of the buffer a span denotes. -/
def read_span (buf : List Char) (s : Nat × Nat) : List Char :=
  (buf.drop s.1).take s.2

/-- The bytes of the buffer a list of spans denotes, in order. -/
def read_spans (buf : List Char) (spans : List (Nat × Nat)) : List Char :=
  (spans.map (read_span buf)).flatten

/-- Hands a list of spans of the buffer to the line editor in order,
threading the line and concatenating the transmitted output. -/
def run_spans (buf line : List Char) (spans : List (Nat × Nat)) :
    List Char × List Char :=
  match spans with
  | [] => (line, [])
  | s :: rest =>
    let r := console_process_bytes line (read_span buf s)
    let r2 := run_spans buf r.1 rest
    (r2.1, r.2 ++ r2.2)

/-- Model of the hardware DMA writer: writes the bytes of w one after the
other into the circular buffer, starting at position pos and wrapping at
UART_RX_DMA_BUF_SIZE. -/
def write_circ (buf : List Char) (pos : Nat) (w : List Char) : List Char :=
  match w with
  | [] => buf
  | c :: rest => write_circ (buf.set pos c) ((pos + 1) % UART_RX_DMA_BUF_SIZE) rest

/-- Number of positions of l at which the prompt string starts. -/
def promptCount (l : List Char) : Nat :=
  (List.range l.length).countP (fun i => decide ((l.drop i).take 2 = "> ".toList))

/-! ## Helper lemmas and claim theorems -/

/-- Claim C3: polling with rx_pending false leaves the whole state, in
particular dma_last_pos and the line buffer, unchanged and transmits
nothing. -/
theorem consoleC3 (st : UartState) (counter : Nat) (h : st.rx_pending = false) :
    task_console st counter = (st, []) := by
  simp [task_console, h]

theorem consoleC3_witness :
    task_console ⟨List.replicate 128 (Char.ofNat 0), 3, false, "ab".toList⟩ 5 =
      (⟨List.replicate 128 (Char.ofNat 0), 3, false, "ab".toList⟩, []) :=
  consoleC3 ⟨List.replicate 128 (Char.ofNat 0), 3, false, "ab".toList⟩ 5 rfl

/-- Claim C5: an erase byte, 0x08 or 0x7F, with a nonempty line drops the
last character, so the length falls by exactly one, and transmits the
three byte erase sequence; with an empty line it changes nothing and
transmits nothing. -/
theorem consoleC5 (st : List Char) (c : Char)
    (hc : c.toNat = 0x08 ∨ c.toNat = 0x7F) :
    (0 < st.length →
      process_byte st c = (st.dropLast, "\x08 \x08".toList)
      ∧ (process_byte st c).1.length = st.length - 1)
    ∧ (st.length = 0 → process_byte st c = (st, [])) := by
  have hterm : ¬(c = '\r' ∨ c = '\n') := by
    rintro (rfl | rfl) <;> exact absurd hc (by decide)
  have hpb : process_byte st c =
      if 0 < st.length then (st.dropLast, "\x08 \x08".toList) else (st, []) := by
    unfold process_byte
    rw [if_neg hterm, if_pos hc]
  constructor
  · intro h
    rw [hpb, if_pos h]
    exact ⟨rfl, by simp [List.length_dropLast]⟩
  · intro h
    rw [hpb, if_neg (by omega)]

theorem consoleC5_witness :
    process_byte "ab".toList (Char.ofNat 8) = ("a".toList, "\x08 \x08".toList)
    ∧ process_byte [] (Char.ofNat 127) = ([], []) := by
  have h1 := (consoleC5 "ab".toList (Char.ofNat 8) (Or.inl (by decide))).1 (by decide)
  have h2 := (consoleC5 [] (Char.ofNat 127) (Or.inr (by decide))).2 (by decide)
  exact ⟨h1.1.trans (by decide), h2⟩

/-- Claim C9: dispatching any completed nonempty line transmits the
prompt, and the transmitted output of the dispatching terminator byte
holds the prompt string exactly once. -/
theorem consoleC9 (st : List Char) (c : Char) (hc : c = '\r' ∨ c = '\n')
    (hne : st ≠ []) :
    (process_byte st c).2 = "\r\n".toList ++ console_handle_command st
    ∧ promptCount (console_handle_command st) = 1
    ∧ promptCount ((process_byte st c).2) = 1 := by
  have hlen : 0 < st.length := List.length_pos.mpr hne
  have h1 : process_byte st c = ([], "\r\n".toList ++ console_handle_command st) := by
    unfold process_byte
    rw [if_pos hc, if_pos hlen]
  by_cases hst : st = "help".toList
  · subst hst
    refine ⟨by rw [h1], by decide, ?_⟩
    rw [h1]
    decide
  · have h2 : console_handle_command st = "> ".toList := by
      unfold console_handle_command
      rw [if_neg hst]
      rfl
    refine ⟨by rw [h1], ?_, ?_⟩
    · rw [h2]; decide
    · rw [h1, h2]; decide

theorem consoleC9_witness :
    promptCount (console_handle_command "led".toList) = 1
    ∧ promptCount ((process_byte "led".toList '\r').2) = 1 := by
  have h := consoleC9 "led".toList '\r' (Or.inl rfl) (by decide)
  exact ⟨h.2.1, h.2.2⟩

/-- Claim C10: a terminator byte on an empty line transmits exactly the
two bytes carriage return and line feed, and that output holds no
occurrence of the prompt string. -/
theorem consoleC10 (c : Char) (hc : c = '\r' ∨ c = '\n') :
    process_byte [] c = ([], "\r\n".toList) ∧ promptCount "\r\n".toList = 0 := by
  rcases hc with rfl | rfl <;> exact ⟨by decide, by decide⟩

theorem consoleC10_witness :
    process_byte [] '\n' = ([], "\r\n".toList) ∧ promptCount "\r\n".toList = 0 :=
  consoleC10 '\n' (Or.inr rfl)

/-- Claim C6 counterexample: feeding the bytes of help then CR LF does
not produce the output the claim names, with one help line per command
table entry. -/
theorem consoleC6_cex :
    (console_process_bytes [] "help\r\n".toList).2 ≠
      "help".toList ++ "\r\n".toList ++
        "help - show this help\r\nled - led off|slow|fast\r\n".toList ++
        "> ".toList := by decide

/-- Claim C6 amended: feeding the bytes of help then CR LF produces the
echo help, then CR LF, then the single fixed help line of the code, then
the prompt, then one further CR LF from the trailing line feed that
terminates an empty line; afterwards the line buffer is empty. -/
theorem consoleC6_amended :
    (console_process_bytes [] "help\r\n".toList).2 =
      "help".toList ++ "\r\n".toList ++
        "help, led off, led slow, led fast\r\n".toList ++ "> ".toList ++
        "\r\n".toList
    ∧ (console_process_bytes [] "help\r\n".toList).1 = [] :=
  ⟨by decide, by decide⟩

/-- Claim C7, code bug record: feeding the bytes of led off then CR LF
makes the code transmit only the echo, CR LF, the prompt and a final CR
LF; the command handler output for the line led off is the bare prompt,
with no ok message, no usage message and no invalid mode message, and the
code of console.c invokes no LED capability anywhere. -/
theorem consoleC7_bug :
    (console_process_bytes [] "led off\r\n".toList).2 =
      "led off".toList ++ "\r\n".toList ++ "> ".toList ++ "\r\n".toList
    ∧ console_handle_command "led off".toList = "> ".toList :=
  ⟨by decide, by decide⟩

/-- Claim C8, code bug record: feeding the bytes of xyz then CR LF makes
the code transmit only the echo, CR LF, the prompt and a final CR LF; the
command handler output for the unmatched line xyz is the bare prompt and
no unknown command message is ever written. -/
theorem consoleC8_bug :
    (console_process_bytes [] "xyz\r\n".toList).2 =
      "xyz".toList ++ "\r\n".toList ++ "> ".toList ++ "\r\n".toList
    ∧ console_handle_command "xyz".toList = "> ".toList :=
  ⟨by decide, by decide⟩

/-- Unfolding equation of console_process_bytes on a cons cell. -/
lemma console_process_bytes_cons (st : List Char) (c : Char) (rest : List Char) :
    console_process_bytes st (c :: rest) =
      ((console_process_bytes (process_byte st c).1 rest).1,
        (process_byte st c).2 ++ (console_process_bytes (process_byte st c).1 rest).2) := rfl

/-- One byte never pushes the line length past LINE_BUF_SIZE - 1. -/
lemma process_byte_len (st : List Char) (c : Char)
    (h : st.length ≤ LINE_BUF_SIZE - 1) :
    (process_byte st c).1.length ≤ LINE_BUF_SIZE - 1 := by
  unfold process_byte
  split
  · split <;> simp [h]
  · split
    · split
      · simp only [List.length_dropLast]
        omega
      · exact h
    · split
      · split
        · rename_i hlt
          simp only [List.length_append, List.length_cons, List.length_nil]
          omega
        · exact h
      · exact h

/-- Processing any byte list keeps the line length at most
LINE_BUF_SIZE - 1. -/
lemma console_process_bytes_len (data : List Char) : ∀ st : List Char,
    st.length ≤ LINE_BUF_SIZE - 1 →
    (console_process_bytes st data).1.length ≤ LINE_BUF_SIZE - 1 := by
  induction data with
  | nil => exact fun st h => h
  | cons c rest ih =>
    intro st h
    rw [console_process_bytes_cons]
    exact ih (process_byte st c).1 (process_byte_len st c h)

/-- Processing a list of printable bytes appends exactly the prefix that
still fits, echoes exactly that prefix, and drops the rest without
touching the accumulated line. -/
lemma process_printable (data : List Char) : ∀ st : List Char,
    (∀ c ∈ data, 0x20 ≤ c.toNat ∧ c.toNat ≤ 0x7E) →
    console_process_bytes st data =
      (st ++ data.take (LINE_BUF_SIZE - 1 - st.length),
        data.take (LINE_BUF_SIZE - 1 - st.length)) := by
  induction data with
  | nil => intro st hp; simp [console_process_bytes]
  | cons c rest ih =>
    intro st hp
    have hc := hp c (List.mem_cons_self c rest)
    have hterm : ¬(c = '\r' ∨ c = '\n') := by
      rintro (rfl | rfl) <;> exact absurd hc (by decide)
    have hbs : ¬(c.toNat = 0x08 ∨ c.toNat = 0x7F) := by omega
    by_cases hl : st.length < LINE_BUF_SIZE - 1
    · have hpb : process_byte st c = (st ++ [c], [c]) := by
        unfold process_byte
        rw [if_neg hterm, if_neg hbs, if_pos hc, if_pos hl]
      rw [console_process_bytes_cons, hpb]
      have hrest2 := ih (st ++ [c]) (fun d hd => hp d (List.mem_cons_of_mem c hd))
      rw [hrest2]
      have harith : LINE_BUF_SIZE - 1 - st.length =
          (LINE_BUF_SIZE - 1 - (st ++ [c]).length) + 1 := by
        simp only [List.length_append, List.length_cons, List.length_nil,
          LINE_BUF_SIZE] at hl ⊢
        omega
      rw [harith, List.take_succ_cons]
      simp [List.append_assoc]
    · have hpb : process_byte st c = (st, []) := by
        unfold process_byte
        rw [if_neg hterm, if_neg hbs, if_pos hc, if_neg hl]
      rw [console_process_bytes_cons, hpb,
        ih st (fun d hd => hp d (List.mem_cons_of_mem c hd))]
      have hz : LINE_BUF_SIZE - 1 - st.length = 0 := by
        simp only [LINE_BUF_SIZE] at hl ⊢
        omega
      simp [hz]

/-- Claim C4: the line length never exceeds LINE_BUF_SIZE - 1, and
feeding LINE_BUF_SIZE or more printable characters with no terminator
keeps exactly the first LINE_BUF_SIZE - 1 of them, echoing exactly those:
each overflowing printable byte is dropped silently and the accumulated
line is left intact. -/
theorem consoleC4 (data st : List Char) (hst : st.length ≤ LINE_BUF_SIZE - 1) :
    (console_process_bytes st data).1.length ≤ LINE_BUF_SIZE - 1
    ∧ ((∀ c ∈ data, 0x20 ≤ c.toNat ∧ c.toNat ≤ 0x7E) →
        LINE_BUF_SIZE ≤ data.length →
        (console_process_bytes [] data).1 = data.take (LINE_BUF_SIZE - 1)
        ∧ (console_process_bytes [] data).2 = data.take (LINE_BUF_SIZE - 1)) := by
  refine ⟨console_process_bytes_len data st hst, fun hp hn => ?_⟩
  have h := process_printable data [] hp
  simp only [List.length_nil, Nat.sub_zero, List.nil_append] at h
  exact ⟨by rw [h], by rw [h]⟩

theorem consoleC4_witness :
    (console_process_bytes "x".toList (List.replicate 64 'a')).1.length ≤
      LINE_BUF_SIZE - 1
    ∧ (console_process_bytes [] (List.replicate 64 'a')).1 =
        (List.replicate 64 'a').take (LINE_BUF_SIZE - 1) := by
  have h := consoleC4 (List.replicate 64 'a') "x".toList (by decide)
  exact ⟨h.1, (h.2 (by decide) (by decide)).1⟩

/-- After any poll, dma_last_pos is either unchanged or the freshly
computed dma_pos. -/
lemma task_console_last_pos (st : UartState) (counter : Nat) :
    (task_console st counter).1.dma_last_pos = st.dma_last_pos ∨
    (task_console st counter).1.dma_last_pos = dma_pos_of counter := by
  unfold task_console
  dsimp only
  split
  · exact Or.inl rfl
  · split
    · split
      · exact Or.inr rfl
      · split
        · exact Or.inr rfl
        · exact Or.inr rfl
    · exact Or.inl rfl

/-- Claim C2 counterexample: the hardware counter value 0, which the
claim admits, makes the computed write position equal to the capacity,
not below it, and the read cursor is then set to the capacity as well. -/
theorem consoleC2_cex :
    dma_pos_of 0 = UART_RX_DMA_BUF_SIZE
    ∧ ¬ dma_pos_of 0 < UART_RX_DMA_BUF_SIZE
    ∧ (task_console ⟨List.replicate 128 (Char.ofNat 0), 0, true, []⟩ 0).1.dma_last_pos
        = UART_RX_DMA_BUF_SIZE :=
  ⟨by decide, by decide, by decide⟩

/-- Claim C2 amended: for every hardware counter value in the interval
from 1 to the capacity, the computed write position equals capacity minus
counter and lies below the capacity, and a poll from a state whose read
cursor lies below the capacity leaves the read cursor below the
capacity. -/
theorem consoleC2_amended (st : UartState) (counter : Nat)
    (hlast : st.dma_last_pos < UART_RX_DMA_BUF_SIZE)
    (h1 : 1 ≤ counter) (h2 : counter ≤ UART_RX_DMA_BUF_SIZE) :
    dma_pos_of counter = UART_RX_DMA_BUF_SIZE - counter
    ∧ dma_pos_of counter < UART_RX_DMA_BUF_SIZE
    ∧ (task_console st counter).1.dma_last_pos < UART_RX_DMA_BUF_SIZE := by
  have hpos : dma_pos_of counter = UART_RX_DMA_BUF_SIZE - counter := by
    simp only [dma_pos_of, UART_RX_DMA_BUF_SIZE] at h2 ⊢
    omega
  have hlt : dma_pos_of counter < UART_RX_DMA_BUF_SIZE := by
    rw [hpos]
    simp only [UART_RX_DMA_BUF_SIZE] at h1 h2 ⊢
    omega
  refine ⟨hpos, hlt, ?_⟩
  rcases task_console_last_pos st counter with h | h
  · rw [h]; exact hlast
  · rw [h]; exact hlt

theorem consoleC2_witness :
    dma_pos_of 64 = UART_RX_DMA_BUF_SIZE - 64
    ∧ dma_pos_of 64 < UART_RX_DMA_BUF_SIZE
    ∧ (task_console ⟨List.replicate 128 (Char.ofNat 0), 0, true, []⟩ 64).1.dma_last_pos
        < UART_RX_DMA_BUF_SIZE :=
  consoleC2_amended ⟨List.replicate 128 (Char.ofNat 0), 0, true, []⟩ 64
    (by decide) (by decide) (by decide)

lemma write_circ_cons (buf : List Char) (pos : Nat) (c : Char) (rest : List Char) :
    write_circ buf pos (c :: rest) =
      write_circ (buf.set pos c) ((pos + 1) % UART_RX_DMA_BUF_SIZE) rest := rfl

lemma write_circ_length (w : List Char) : ∀ (buf : List Char) (pos : Nat),
    (write_circ buf pos w).length = buf.length := by
  induction w with
  | nil => intro buf pos; rfl
  | cons c rest ih =>
    intro buf pos
    rw [write_circ_cons, ih]
    simp

lemma write_circ_nowrap (w : List Char) : ∀ (buf : List Char) (pos : Nat),
    buf.length = UART_RX_DMA_BUF_SIZE → pos + w.length ≤ UART_RX_DMA_BUF_SIZE →
    write_circ buf pos w = buf.take pos ++ w ++ buf.drop (pos + w.length) := by
  induction w with
  | nil =>
    intro buf pos hb hle
    simp [write_circ]
  | cons c rest ih =>
    intro buf pos hb hle
    simp only [List.length_cons] at hle
    have hpos : pos < UART_RX_DMA_BUF_SIZE := by omega
    have hposb : pos < buf.length := by omega
    rw [write_circ_cons]
    by_cases h128 : pos + 1 = UART_RX_DMA_BUF_SIZE
    · have hrest : rest = [] := by
        have h0 : rest.length = 0 := by omega
        exact List.eq_nil_of_length_eq_zero h0
      subst hrest
      show buf.set pos c = _
      rw [List.set_eq_take_append_cons_drop, if_pos hposb]
      simp
    · have hlt : pos + 1 < UART_RX_DMA_BUF_SIZE := by omega
      rw [Nat.mod_eq_of_lt hlt]
      rw [ih (buf.set pos c) (pos + 1) (by simpa using hb) (by omega)]
      rw [List.drop_set_of_lt c buf (by omega)]
      have h1 : ((buf.set pos c).take (pos + 1)) = buf.take pos ++ [c] := by
        rw [List.set_eq_take_append_cons_drop, if_pos hposb]
        rw [show buf.take pos ++ c :: buf.drop (pos + 1) =
          (buf.take pos ++ [c]) ++ buf.drop (pos + 1) by simp]
        apply List.take_left'
        simp [List.length_take]
        omega
      rw [h1]
      have h2 : pos + 1 + rest.length = pos + (rest.length + 1) := by omega
      rw [h2]
      simp [List.append_assoc]

lemma write_circ_split (w1 : List Char) : ∀ (w2 buf : List Char) (pos : Nat),
    pos < UART_RX_DMA_BUF_SIZE →
    write_circ buf pos (w1 ++ w2) =
      write_circ (write_circ buf pos w1)
        ((pos + w1.length) % UART_RX_DMA_BUF_SIZE) w2 := by
  induction w1 with
  | nil =>
    intro w2 buf pos h
    simp only [List.nil_append, List.length_nil, Nat.add_zero, Nat.mod_eq_of_lt h]
    rfl
  | cons c rest ih =>
    intro w2 buf pos h
    simp only [List.cons_append, write_circ_cons, List.length_cons]
    rw [ih w2 (buf.set pos c) ((pos + 1) % UART_RX_DMA_BUF_SIZE)
      (Nat.mod_lt _ (by decide))]
    congr 1
    simp only [UART_RX_DMA_BUF_SIZE]
    omega

lemma read_middle (a w d : List Char) (n k : Nat) (hn : a.length = n)
    (hk : w.length = k) : ((a ++ w ++ d).drop n).take k = w := by
  subst hn
  subst hk
  rw [List.append_assoc, List.drop_left, List.take_left]

lemma replay_spans (last head : Nat) (buf w : List Char)
    (hl : last < UART_RX_DMA_BUF_SIZE) (hh : head < UART_RX_DMA_BUF_SIZE)
    (hbuf : buf.length = UART_RX_DMA_BUF_SIZE)
    (hw : w.length = (head + UART_RX_DMA_BUF_SIZE - last) % UART_RX_DMA_BUF_SIZE) :
    read_spans (write_circ buf last w) (poll_spans last head) = w := by
  rcases Nat.lt_trichotomy head last with hlt | heq | hgt
  · -- head < last : the wrap cases
    have hwlen : w.length = head + UART_RX_DMA_BUF_SIZE - last := by
      simp only [UART_RX_DMA_BUF_SIZE] at hl hh hw ⊢
      omega
    by_cases hz : head = 0
    · subst hz
      have hle : last + w.length ≤ UART_RX_DMA_BUF_SIZE := by
        simp only [UART_RX_DMA_BUF_SIZE] at hwlen hl ⊢
        omega
      rw [write_circ_nowrap w buf last hbuf hle]
      have hspan : poll_spans last 0 = [(last, UART_RX_DMA_BUF_SIZE - last)] := by
        unfold poll_spans
        rw [if_pos (by omega), if_neg (by omega)]
        simp
      rw [hspan]
      simp only [read_spans, read_span, List.map_cons, List.map_nil,
        List.flatten_cons, List.flatten_nil, List.append_nil]
      apply read_middle
      · simp [List.length_take]
        omega
      · simp only [UART_RX_DMA_BUF_SIZE] at hwlen ⊢
        omega
    · -- 0 < head < last : genuine wrap, two spans
      have hk1 : UART_RX_DMA_BUF_SIZE - last ≤ w.length := by
        simp only [UART_RX_DMA_BUF_SIZE] at hwlen ⊢
        omega
      have hlentake : (w.take (UART_RX_DMA_BUF_SIZE - last)).length =
          UART_RX_DMA_BUF_SIZE - last := by
        simp [List.length_take]
        omega
      have hlendrop : (w.drop (UART_RX_DMA_BUF_SIZE - last)).length = head := by
        simp only [List.length_drop]
        simp only [UART_RX_DMA_BUF_SIZE] at hwlen hl ⊢
        omega
      conv_lhs => rw [← List.take_append_drop (UART_RX_DMA_BUF_SIZE - last) w]
      rw [write_circ_split _ _ buf last hl]
      rw [hlentake]
      have hmod : (last + (UART_RX_DMA_BUF_SIZE - last)) % UART_RX_DMA_BUF_SIZE = 0 := by
        simp only [UART_RX_DMA_BUF_SIZE] at hl ⊢
        omega
      rw [hmod]
      rw [write_circ_nowrap _ buf last hbuf (by rw [hlentake]; omega)]
      rw [hlentake]
      have hfull : last + (UART_RX_DMA_BUF_SIZE - last) = buf.length := by omega
      rw [hfull, List.drop_length, List.append_nil]
      have hlen2 : (buf.take last ++ w.take (UART_RX_DMA_BUF_SIZE - last)).length =
          UART_RX_DMA_BUF_SIZE := by
        simp [List.length_take]
        omega
      rw [write_circ_nowrap _ _ 0 hlen2 (by rw [hlendrop]; omega)]
      simp only [List.take_zero, List.nil_append, Nat.zero_add]
      rw [hlendrop]
      rw [List.drop_append_of_le_length (by simp [List.length_take]; omega)]
      have hspan : poll_spans last head =
          [(last, UART_RX_DMA_BUF_SIZE - last), (0, head)] := by
        unfold poll_spans
        rw [if_pos (by omega), if_neg (by omega), if_pos (by omega)]
      rw [hspan]
      simp only [read_spans, read_span, List.map_cons, List.map_nil,
        List.flatten_cons, List.flatten_nil, List.append_nil, List.drop_zero]
      have hB1 : ((w.drop (UART_RX_DMA_BUF_SIZE - last) ++
            ((buf.take last).drop head ++ w.take (UART_RX_DMA_BUF_SIZE - last))).drop
              last).take (UART_RX_DMA_BUF_SIZE - last) =
          w.take (UART_RX_DMA_BUF_SIZE - last) := by
        rw [show w.drop (UART_RX_DMA_BUF_SIZE - last) ++
            ((buf.take last).drop head ++ w.take (UART_RX_DMA_BUF_SIZE - last)) =
            (w.drop (UART_RX_DMA_BUF_SIZE - last) ++ (buf.take last).drop head) ++
              w.take (UART_RX_DMA_BUF_SIZE - last) by simp [List.append_assoc]]
        rw [List.drop_left' (by
          simp only [List.length_append, List.length_drop, List.length_take]
          simp only [UART_RX_DMA_BUF_SIZE] at hwlen hl hbuf ⊢
          omega)]
        simp [List.take_take]
      have hB2 : ((w.drop (UART_RX_DMA_BUF_SIZE - last) ++
            ((buf.take last).drop head ++ w.take (UART_RX_DMA_BUF_SIZE - last)))).take
              head = w.drop (UART_RX_DMA_BUF_SIZE - last) :=
        List.take_left' hlendrop
      rw [hB1, hB2]
      exact List.take_append_drop _ w
  · -- head = last : no new bytes, no spans
    have hw0 : w.length = 0 := by
      subst heq
      simp only [UART_RX_DMA_BUF_SIZE] at hw hl ⊢
      omega
    have hnil : w = [] := List.eq_nil_of_length_eq_zero hw0
    subst hnil
    subst heq
    simp [poll_spans, read_spans, write_circ]
  · -- last < head : one span, no wrap
    have hwlen : w.length = head - last := by
      simp only [UART_RX_DMA_BUF_SIZE] at hw hh ⊢
      omega
    have hle : last + w.length ≤ UART_RX_DMA_BUF_SIZE := by
      simp only [UART_RX_DMA_BUF_SIZE] at hwlen hh ⊢
      omega
    rw [write_circ_nowrap w buf last hbuf hle]
    have hspan : poll_spans last head = [(last, head - last)] := by
      unfold poll_spans
      rw [if_pos (by omega), if_pos hgt]
    rw [hspan]
    simp only [read_spans, read_span, List.map_cons, List.map_nil,
      List.flatten_cons, List.flatten_nil, List.append_nil]
    apply read_middle
    · simp [List.length_take]
      omega
    · omega

lemma task_console_run_spans (st : UartState) (counter : Nat)
    (hp : st.rx_pending = true) :
    task_console st counter =
      ({ st with
          rx_pending := false
          dma_last_pos := dma_pos_of counter
          line_buf := (run_spans st.uart_rx_dma_buf st.line_buf
            (poll_spans st.dma_last_pos (dma_pos_of counter))).1 },
       (run_spans st.uart_rx_dma_buf st.line_buf
         (poll_spans st.dma_last_pos (dma_pos_of counter))).2) := by
  rcases st with ⟨buf, last, pend, lb⟩
  simp only at hp
  subst hp
  by_cases h1 : dma_pos_of counter = last
  · simp [task_console, poll_spans, run_spans, h1]
  · by_cases h2 : dma_pos_of counter > last
    · simp [task_console, poll_spans, run_spans, h1, h2, read_span]
    · by_cases h3 : dma_pos_of counter > 0
      · simp [task_console, poll_spans, run_spans, h1, h2, h3, read_span]
      · simp [task_console, poll_spans, run_spans, h1, h2, h3, read_span]

/-- Claim C1 amended: for last and head below the capacity, a pending
poll hands zero spans when head equals last; exactly the one span from
last of length head minus last when head is above last; when head is
below last, the span from last to the capacity followed by the span from
0 of length head when head is positive, and that first span alone when
head is zero; replaying the handed spans on the buffer after the hardware
wrote the w bytes circularly from last reproduces w exactly, in order;
and the poll processes exactly these spans and sets dma_last_pos to
head. -/
theorem consoleC1 (last head : Nat) (hl : last < UART_RX_DMA_BUF_SIZE)
    (hh : head < UART_RX_DMA_BUF_SIZE) :
    (head = last → poll_spans last head = [])
    ∧ (last < head → poll_spans last head = [(last, head - last)])
    ∧ (head < last → 0 < head →
        poll_spans last head = [(last, UART_RX_DMA_BUF_SIZE - last), (0, head)])
    ∧ (head < last → head = 0 →
        poll_spans last head = [(last, UART_RX_DMA_BUF_SIZE - last)])
    ∧ (∀ buf w : List Char, buf.length = UART_RX_DMA_BUF_SIZE →
        w.length = (head + UART_RX_DMA_BUF_SIZE - last) % UART_RX_DMA_BUF_SIZE →
        read_spans (write_circ buf last w) (poll_spans last head) = w)
    ∧ (∀ (st : UartState) (counter : Nat), st.rx_pending = true →
        st.dma_last_pos = last → dma_pos_of counter = head →
        (task_console st counter).1.dma_last_pos = head
        ∧ task_console st counter =
          ({ st with
              rx_pending := false
              dma_last_pos := head
              line_buf := (run_spans st.uart_rx_dma_buf st.line_buf
                (poll_spans last head)).1 },
            (run_spans st.uart_rx_dma_buf st.line_buf (poll_spans last head)).2)) := by
  refine ⟨?_, ?_, ?_, ?_, ?_, ?_⟩
  · intro h
    unfold poll_spans
    rw [if_neg (by omega)]
  · intro h
    unfold poll_spans
    rw [if_pos (by omega), if_pos h]
  · intro h h0
    unfold poll_spans
    rw [if_pos (by omega), if_neg (by omega), if_pos h0]
  · intro h h0
    unfold poll_spans
    rw [if_pos (by omega), if_neg (by omega), if_neg (by omega)]
  · exact fun buf w hb hw => replay_spans last head buf w hl hh hb hw
  · intro st counter hp hlastq hpos
    subst hlastq
    subst hpos
    have h := task_console_run_spans st counter hp
    exact ⟨by rw [h], h⟩

/-- Claim C1 counterexample: at last_pos 1 and head 0, both below the
capacity and with head below last_pos, the poll hands exactly one span,
not the two spans the claim states. -/
theorem consoleC1_cex :
    (0:Nat) < 1 ∧ 1 < UART_RX_DMA_BUF_SIZE ∧ 0 < UART_RX_DMA_BUF_SIZE ∧
    poll_spans 1 0 = [(1, 127)] ∧ (poll_spans 1 0).length ≠ 2 := by decide

theorem consoleC1_witness :
    poll_spans 126 1 = [(126, 2), (0, 1)]
    ∧ read_spans (write_circ (List.replicate 128 'z') 126 "abc".toList)
        (poll_spans 126 1) = "abc".toList := by
  have h := consoleC1 126 1 (by decide) (by decide)
  refine ⟨h.2.2.1 (by decide) (by decide), ?_⟩
  exact h.2.2.2.2.1 (List.replicate 128 'z') "abc".toList (by decide) (by decide)
